import Mathlib

/-!
Verification development for the distributed node-identity allocator and
service-discovery layer of the plaud-emails repository (package
`pkg/snowflake` and `pkg/etcd` of the vendored plaud-go-scaffold).

The coordination store (etcd) is shallowly embedded as an association map
from keys to entries carrying a value together with its `version` (number of
puts since the key last became absent; absent keys compare as version 0) and
`modRevision` (the global store revision at the last write), exactly the two
notions the Go code conditions its transactions on.  Transactions
(`If(Compare(...)).Then(op)`) become functions returning the new store and the
`Succeeded` flag.  JSON-encoded values are embedded by their decode outcome:
a stored byte string either deserializes to a `nodeClaim` / `serviceInfo`
(constructor `valid`) or fails to (constructor `malformed` / `corrupt`),
which is all `json.Unmarshal` in the source distinguishes.

Node-claim keys are the strings `keyPfx ++ "/" ++ toString id` for the ids
`id` of the configured range; for a fixed key-path they are in bijection
with the ids, so the claim store is keyed directly by the integer id.

Wall-clock reads (`time.Now().UnixMilli()`) are passed in as an integer
parameter `now`; durations are integers in milliseconds.  Go `int64`
arithmetic in the embedded code is only comparison and subtraction of
timestamps, ids and revisions, far from overflow, so it is modelled by `Int`.
-/

/-- The node-claim record `nodeClaim` of pkg/snowflake: JSON fields
`node_id` (only set when recording a stale claim for logging), `owner`,
`heartbeat_at` (milliseconds). -/
structure nodeClaim where
  nodeID : String
  owner : String
  heartbeatAt : Int
deriving DecidableEq, Repr

/-- Decode outcome of the JSON bytes stored under a node-claim key
(`json.Unmarshal(kv.Value, &nc)` in the source). -/
inductive ClaimVal where
  | valid (nc : nodeClaim)
  | malformed
deriving DecidableEq, Repr

/-- `json.Unmarshal` of a stored node-claim value, as its outcome. -/
def unmarshalClaim : ClaimVal → Option nodeClaim
  | .valid nc => some nc
  | .malformed => none

/-- A key's stored state in the coordination store: the (decoded) value, the
store revision of its last modification (etcd `ModRevision`), and the number
of puts since the key was last created (etcd `Version`; an absent key
compares as version 0). -/
structure KVEntry where
  value : ClaimVal
  modRevision : Nat
  version : Nat
deriving DecidableEq, Repr

/-- Association-list lookup used by the store model. -/
def assocGet {κ α : Type} [DecidableEq κ] : List (κ × α) → κ → Option α
  | [], _ => none
  | (k, v) :: rest, key => if key = k then some v else assocGet rest key

/-- Remove a key from an association list (used by put and delete). -/
def eraseKey {κ α : Type} [DecidableEq κ] : List (κ × α) → κ → List (κ × α)
  | [], _ => []
  | (k, v) :: rest, key =>
      if k = key then eraseKey rest key else (k, v) :: eraseKey rest key

/-- The node-claim portion of the etcd store: entries keyed by node id,
plus the global store revision counter. -/
structure ClaimStore where
  kvs : List (Int × KVEntry)
  rev : Nat
deriving DecidableEq, Repr

/-- Read a key (`client.Get`): the key's current entry, if present. -/
def ClaimStore.get (st : ClaimStore) (id : Int) : Option KVEntry :=
  assocGet st.kvs id

/-- etcd `Version(key)` as used in transaction compares: the entry's
version, or 0 when the key is absent (never written, or just deleted). -/
def ClaimStore.ver (st : ClaimStore) (id : Int) : Nat :=
  match st.get id with
  | none => 0
  | some kv => kv.version

/-- Write a key: the store revision advances, the entry's `modRevision`
becomes the new revision and its `version` increments (1 on creation). -/
def ClaimStore.put (st : ClaimStore) (id : Int) (v : ClaimVal) : ClaimStore :=
  let r := st.rev + 1
  let ver := match st.get id with
    | none => 1
    | some kv => kv.version + 1
  { kvs := (id, ⟨v, r, ver⟩) :: eraseKey st.kvs id, rev := r }

/-- Delete a key: the entry is removed (its version restarts at 0 if the
key is ever recreated); the store revision advances. -/
def ClaimStore.del (st : ClaimStore) (id : Int) : ClaimStore :=
  { kvs := eraseKey st.kvs id, rev := st.rev + 1 }

/-- Transaction `If(Compare(Version(key), "=", 0)).Then(OpPut(key, v))`:
the atomic create used by the allocator's claim pass.  Returns the new
store and the transaction's `Succeeded` flag. -/
def txnCreateIfVer0 (st : ClaimStore) (id : Int) (v : ClaimVal) :
    ClaimStore × Bool :=
  if st.ver id = 0 then (st.put id v, true) else (st, false)

/-- Transaction `If(Compare(ModRevision(key), "=", r)).Then(OpDelete(key))`:
the atomic conditional delete used by the cleanup pass.  A compare on an
absent key fails. -/
def txnDelIfModRev (st : ClaimStore) (id : Int) (r : Nat) :
    ClaimStore × Bool :=
  match st.get id with
  | none => (st, false)
  | some kv => if kv.modRevision = r then (st.del id, true) else (st, false)

/-- Transaction `If(Compare(ModRevision(key), "=", r)).Then(OpPut(key, v))`:
the compare-and-swap used by the allocator's heartbeat refresh. -/
def txnPutIfModRev (st : ClaimStore) (id : Int) (r : Nat) (v : ClaimVal) :
    ClaimStore × Bool :=
  match st.get id with
  | none => (st, false)
  | some kv => if kv.modRevision = r then (st.put id v, true) else (st, false)

/-! ## Node-ID Allocator (`GeneratorCreater` of pkg/snowflake) -/

/-- The inclusive id range scanned by `GeneratorCreater.Init`
(`for id := start; id <= end; id++`). -/
def rangeIds (s e : Int) : List Int :=
  (List.range (e + 1 - s).toNat).map (fun (i : Nat) => s + (i : Int))

/-- The stale-claim key string recorded for logging
(`fmt.Sprintf("%s/%d", keyPfx, id)`). -/
def claimKeyStr (pfx : String) (id : Int) : String :=
  pfx ++ "/" ++ toString id

/-- One iteration of the pre-allocation cleanup scan, read part: the body of
the first loop of `GeneratorCreater.Init` up to the transaction.  Returns
`some r` exactly when a conditional delete will be attempted, where `r` is
the `ModRevision` observed by the read (the transaction's compare value):
the key is present, its value deserializes, and its `heartbeat_at` predates
`now - grace` (milliseconds).  Malformed values are logged and skipped. -/
def cleanupDecision (now grace : Int) (st : ClaimStore) (id : Int) :
    Option Nat :=
  match st.get id with
  | none => none
  | some kv =>
    match unmarshalClaim kv.value with
    | none => none
    | some nc =>
      if nc.heartbeatAt < now - grace then some kv.modRevision else none

/-- One iteration of the pre-allocation cleanup scan: read the claim key
and, if the stored claim is stale, attempt the atomic delete conditioned on
the key's modification revision being unchanged since the read.  Success or
failure of the transaction is only logged; the scan continues regardless. -/
def cleanupClaim (now grace : Int) (st : ClaimStore) (id : Int) : ClaimStore :=
  match cleanupDecision now grace st id with
  | none => st
  | some r => (txnDelIfModRev st id r).1

/-- The whole pre-allocation cleanup pass of `GeneratorCreater.Init` over
the ids of the configured range, in order. -/
def cleanupPass (now grace : Int) (st : ClaimStore) (ids : List Int) :
    ClaimStore :=
  ids.foldl (fun s id => cleanupClaim now grace s id) st

/-- Result of the claim pass of `GeneratorCreater.Init`: the allocated id
(`allocatedID`, `none` embedding the Go sentinel `-1`), the recorded
possibly-stale claims (`staleClaims`, later emitted as error logs), and the
store after the pass. -/
structure claimPassResult where
  allocatedID : Option Int
  staleClaims : List nodeClaim
  store : ClaimStore
deriving DecidableEq, Repr

/-- The claim pass of `GeneratorCreater.Init` (second loop): iterate the
range in order; an occupied id is skipped (recording the claim, with its
key, when it deserializes and its heartbeat is stale); at an absent id the
process attempts the atomic create conditioned on `Version(key) == 0`,
writing `{owner: serverID, heartbeat_at: now}`, and stops at the first id
whose create succeeds. -/
def claimPass (pfx serverID : String) (now grace : Int) (st : ClaimStore) :
    List Int → claimPassResult
  | [] => ⟨none, [], st⟩
  | id :: rest =>
    match st.get id with
    | some kv =>
      let recd : List nodeClaim :=
        match unmarshalClaim kv.value with
        | none => []
        | some nc =>
          if nc.heartbeatAt < now - grace then
            [{ nc with nodeID := claimKeyStr pfx id }]
          else []
      let r := claimPass pfx serverID now grace st rest
      ⟨r.allocatedID, recd ++ r.staleClaims, r.store⟩
    | none =>
      let myClaim : nodeClaim := ⟨"", serverID, now⟩
      let res := txnCreateIfVer0 st id (.valid myClaim)
      if res.2 then ⟨some id, [], res.1⟩
      else claimPass pfx serverID now grace st rest

/-- Startup errors of `GeneratorCreater.Init`; the constructors stand for
the Go errors `invalid etcd_node_id_range: [s, e]` and
`no available node_id in range [s, e]`. -/
inductive initErr where
  | invalidRange (s e : Int)
  | noAvailableNodeID (s e : Int)
deriving DecidableEq, Repr

/-- `GeneratorCreater.Init` in the etcd path, single-process view: validate
the configured range, run the cleanup pass then the claim pass over it, and
either fail with an explicit error when no id could be claimed or succeed
with the allocated node id (and the resulting store). -/
def snowflakeInit (pfx serverID : String) (now grace : Int) (s e : Int)
    (st : ClaimStore) : Except initErr (Int × ClaimStore) :=
  if s < 0 ∨ e < s then .error (.invalidRange s e)
  else
    let st1 := cleanupPass now grace st (rangeIds s e)
    let r := claimPass pfx serverID now grace st1 (rangeIds s e)
    match r.allocatedID with
    | none => .error (.noAvailableNodeID s e)
    | some id => .ok (id, r.store)

/-- Outcome of one allocator heartbeat tick (`GeneratorCreater.keepAlive`),
mirroring its early returns and logs: read failed or key missing; stored
value malformed; recorded owner differs from this process's server id
(ownership loss, logged, no write); CAS failed (ownership conflict,
logged); heartbeat refreshed. -/
inductive kaOutcome where
  | keyMissing
  | malformed
  | lostOwnership
  | casFailed
  | refreshed
deriving DecidableEq, Repr

/-- `GeneratorCreater.keepAlive`: re-read the claim; stop without writing
when the key is missing, the value is malformed, or the recorded owner is
not this process's server id; otherwise refresh `heartbeat_at` to `now` via
the compare-and-swap conditioned on the modification revision observed by
the read.  The read is served from `stRead`; the transaction executes
against `stTxn`, which may differ when the store changed between the two
calls (they are separate RPCs in the source). -/
def snowflakeKeepAlive (serverID : String) (now : Int) (key : Int)
    (stRead stTxn : ClaimStore) : kaOutcome × ClaimStore :=
  match stRead.get key with
  | none => (.keyMissing, stTxn)
  | some kv =>
    match unmarshalClaim kv.value with
    | none => (.malformed, stTxn)
    | some claim =>
      if claim.owner ≠ serverID then (.lostOwnership, stTxn)
      else
        let claim' := { claim with heartbeatAt := now }
        let res := txnPutIfModRev stTxn key kv.modRevision (.valid claim')
        if res.2 then (.refreshed, res.1) else (.casFailed, res.1)

/-! ## Service Registry (`ServiceRegistry` of pkg/etcd) -/

/-- The endpoint record `ServiceInfo`: JSON `addr`, `port`, optional
`metadata`, `update_at` (milliseconds). -/
structure serviceInfo where
  addr : String
  port : Int
  metadata : List (String × String)
  updateAt : Int
deriving DecidableEq, Repr

/-- Decode outcome of the JSON bytes stored under a service endpoint key. -/
inductive svcVal where
  | valid (info : serviceInfo)
  | corrupt
deriving DecidableEq, Repr

/-- `json.Unmarshal` of a stored endpoint record, as its outcome. -/
def unmarshalSvc : svcVal → Option serviceInfo
  | .valid info => some info
  | .corrupt => none

/-- `ServiceInfo.GetID`: `fmt.Sprintf("%s:%d", p.Addr, p.Port)`. -/
def serviceInfoID (info : serviceInfo) : String :=
  info.addr ++ ":" ++ toString info.port

/-- A locally remembered registration (`registration` of pkg/etcd):
the service name and the registered info, kept for re-registration after
lease loss. -/
structure registration where
  serviceName : String
  info : serviceInfo
deriving DecidableEq, Repr

/-- The `ServiceRegistry` fields the keep-alive path touches: the current
lease id, the normalized service key path (`servicePrefix`), the optional
externally-reachable address (`serviceAddr`), and the Local Registration
Table (`registrations`, keyed by the written etcd key). -/
structure regState where
  leaseID : Nat
  svcPfx : String
  serviceAddr : String
  registrations : List (String × registration)
deriving DecidableEq, Repr

/-- `ServiceRegistry.getServiceKey`: `/services/<serviceName>/`, with the
service key path prepended when non-empty. -/
def getServiceKey (svcPfx serviceName : String) : String :=
  let key := "/services/" ++ serviceName ++ "/"
  if svcPfx ≠ "" then svcPfx ++ key else key

/-- `ServiceRegistry.getServiceNodeKey`: the record key from the service
name plus the effective node identity (the exposed address overrides the
info's address when configured). -/
def getServiceNodeKey (reg : regState) (serviceName : String)
    (info : serviceInfo) : String :=
  let sid :=
    if reg.serviceAddr ≠ "" then serviceInfoID { info with addr := reg.serviceAddr }
    else serviceInfoID info
  let key := "/services/" ++ serviceName ++ "/" ++ sid
  if reg.svcPfx ≠ "" then reg.svcPfx ++ key else key

/-- The lease-and-endpoint portion of the etcd store: the set of live lease
ids, the next lease id the store will grant, and the endpoint records, each
attached to the lease id it was written with. -/
structure leaseStoreSt where
  leases : List Nat
  nextLeaseID : Nat
  kvs : List (String × (svcVal × Nat))
deriving DecidableEq, Repr

/-- Write an endpoint record attached to a lease
(`client.Put(ctx, key, value, clientv3.WithLease(leaseID))`). -/
def leasePut (st : leaseStoreSt) (key : String) (v : svcVal) (lease : Nat) :
    leaseStoreSt :=
  { st with kvs := (key, (v, lease)) :: eraseKey st.kvs key }

/-- `ServiceRegistry.putService`: apply the exposed-address override,
compute the record key, stamp `update_at = now`, and write the record
attached to the current lease.  A put RPC may fail; the environment is
summarized by `failKeys`, the keys whose put errors.  Returns the final
key, the success flag, and the store. -/
def putService (reg : regState) (now : Int) (failKeys : List String)
    (st : leaseStoreSt) (serviceName : String) (info : serviceInfo) :
    (String × Bool) × leaseStoreSt :=
  let info1 := if reg.serviceAddr ≠ "" then { info with addr := reg.serviceAddr } else info
  let key := getServiceNodeKey reg serviceName info1
  let info2 := { info1 with updateAt := now }
  if key ∈ failKeys then ((key, false), st)
  else ((key, true), leasePut st key (.valid info2) reg.leaseID)

/-- Errors surfaced by the registry keep-alive path: lease re-grant failed,
or re-registering the named record key failed (the first failing record,
propagated immediately by `recreateLeaseAndReregister`). -/
inductive kaErr where
  | grantFailed
  | reregFailed (key : String)
deriving DecidableEq, Repr

/-- The re-registration loop of `recreateLeaseAndReregister`: re-put each
snapshotted record; the first put failure is returned at once as an error
naming its key. -/
def reregAll (reg : regState) (now : Int) (failKeys : List String)
    (st : leaseStoreSt) : List registration → Except kaErr Unit × leaseStoreSt
  | [] => (.ok (), st)
  | r :: rest =>
    let res := putService reg now failKeys st r.serviceName r.info
    if res.1.2 then reregAll reg now failKeys res.2 rest
    else (.error (.reregFailed res.1.1), res.2)

/-- `ServiceRegistry.recreateLeaseAndReregister`: grant a new lease, adopt
its id, snapshot the Local Registration Table, and re-register every
snapshotted record against the new lease id. -/
def recreateLeaseAndReregister (reg : regState) (now : Int)
    (grantFails : Bool) (failKeys : List String) (st : leaseStoreSt) :
    Except kaErr Unit × regState × leaseStoreSt :=
  if grantFails then (.error .grantFailed, reg, st)
  else
    let lid := st.nextLeaseID
    let st1 := { st with leases := lid :: st.leases,
                         nextLeaseID := st.nextLeaseID + 1 }
    let reg1 := { reg with leaseID := lid }
    let out := reregAll reg1 now failKeys st1 (reg1.registrations.map (·.2))
    (out.1, reg1, out.2)

/-- `ServiceRegistry.keepAlive`: a keep-alive on a live lease succeeds; when
the store reports the lease unknown (`lease not found`), the session
recreates the lease and re-registers every locally tracked endpoint, and
any failure of that recovery is returned as the keep-alive error. -/
def registryKeepAlive (reg : regState) (now : Int) (grantFails : Bool)
    (failKeys : List String) (st : leaseStoreSt) :
    Except kaErr Unit × regState × leaseStoreSt :=
  if reg.leaseID ∈ st.leases then (.ok (), reg, st)
  else recreateLeaseAndReregister reg now grantFails failKeys st

/-- Environment of one heartbeat tick: the wall clock and the RPC failures
of that tick. -/
structure tickEnv where
  now : Int
  grantFails : Bool
  failKeys : List String
deriving DecidableEq, Repr

/-- The registry heartbeat loop (`ServiceRegistry.heartbeat`) over a finite
schedule of ticks: every tick runs `keepAlive`; an error is logged and the
loop continues with the next tick (it exits only on `stopChan`).  Returns
the final state and each tick's outcome. -/
def heartbeatRun : List tickEnv → regState → leaseStoreSt →
    regState × leaseStoreSt × List (Except kaErr Unit)
  | [], reg, st => (reg, st, [])
  | e :: rest, reg, st =>
    let out := registryKeepAlive reg e.now e.grantFails e.failKeys st
    let fin := heartbeatRun rest out.2.1 out.2.2
    (fin.1, fin.2.1, out.1 :: fin.2.2)

/-- `ServiceRegistry.GetServices` record loop: each record whose value
deserializes is appended; one that fails to is logged and skipped. -/
def collectServices : List (String × (svcVal × Nat)) → List serviceInfo
  | [] => []
  | (_, v) :: rest =>
    match unmarshalSvc v.1 with
    | none => collectServices rest
    | some info => info :: collectServices rest

/-- `ServiceRegistry.GetServices`: read every record under the service's
key path (`clientv3.WithPrefix`) and collect those that deserialize.  The
only error return in the source is a failed store read, which the model's
always-available store never produces. -/
def getServices (svcPfx : String) (st : leaseStoreSt) (serviceName : String) :
    Except String (List serviceInfo) :=
  let key := getServiceKey svcPfx serviceName
  .ok (collectServices (st.kvs.filter (fun e => key.isPrefixOf e.1)))

/-! ## ID Generator (`NewFromConfig` of pkg/snowflake) -/

/-- The configured custom epoch, embedded by the outcome of
`time.Parse(time.RFC3339, cfg.Epoch)`: either the parsed instant in
milliseconds or a parse failure. -/
inductive epochCfg where
  | valid (ms : Int)
  | invalid
deriving DecidableEq, Repr

/-- The fields of `SnowflakeConfig` read by `NewFromConfig`: the epoch
string (as its parse outcome) and the node id. -/
structure snowflakeCfg where
  epoch : epochCfg
  nodeID : Int
deriving DecidableEq, Repr

/-- The process-wide mutable state behind generator construction: the
`sync.Once` guard `initEpochOnce` (`done`) and the package-level global
`snowflake.Epoch` (`epochMillis`). -/
structure epochState where
  done : Bool
  epochMillis : Int
deriving DecidableEq, Repr

/-- Construction errors of `NewFromConfig`: the epoch string fails to
parse, or `snowflake.NewNode` rejects the node id (it requires
0 ≤ nodeID ≤ 1023 for the default 10 node bits). -/
inductive genErr where
  | invalidEpoch
  | invalidNodeID
deriving DecidableEq, Repr

/-- The constructed `Generator` (its wrapped node id). -/
structure generatorRec where
  nodeID : Int
deriving DecidableEq, Repr

/-- `NewFromConfig` as a transformer of the process-wide epoch state: a
parse failure of the configured epoch returns an error and touches nothing;
otherwise `initEpochOnce.Do` installs the parsed epoch into
`snowflake.Epoch` only when it has never run, and `snowflake.NewNode`
then accepts or rejects the node id (the once-guard has already run either
way). -/
def newFromConfig (cfg : snowflakeCfg) (st : epochState) :
    Except genErr generatorRec × epochState :=
  match cfg.epoch with
  | .invalid => (.error .invalidEpoch, st)
  | .valid t =>
    let st' := if st.done then st else ⟨true, t⟩
    if 0 ≤ cfg.nodeID ∧ cfg.nodeID ≤ 1023 then (.ok ⟨cfg.nodeID⟩, st')
    else (.error .invalidNodeID, st')

/-- A sequence of generator constructions in one process, threading the
process-wide epoch state. -/
def runConstructions (cfgs : List snowflakeCfg) (st : epochState) :
    epochState :=
  cfgs.foldl (fun s cfg => (newFromConfig cfg s).2) st

/-! ## Concurrent claim races

The claim pass run by several processes at once (the code of the second
loop of `GeneratorCreater.Init`), as an interleaved transition system.
Each process is a little program counter over its remaining ids; the store
read (`client.Get`) and the create transaction are separate atomic actions,
exactly as they are separate RPCs in the source, so another process can
interleave between a read that found a key absent and the create that
follows it — the race the `Version == 0` condition exists to decide. -/

/-- Program counter of one process running the claim pass: about to read
the head of its remaining ids; read found the head absent and the create
transaction is pending; succeeded with an id; or exhausted the range. -/
inductive pstate where
  | scan (ids : List Int)
  | arm (id : Int) (ids : List Int)
  | claimed (id : Int)
  | failed
deriving DecidableEq, Repr

/-- Global state of a claim race: the shared claim store and each
process's program counter. -/
structure raceSys where
  store : ClaimStore
  procs : List pstate
deriving DecidableEq, Repr

/-- The claim value process `i` submits in its create transaction. -/
def raceClaimVal (owners : List String) (i : Nat) (t : Int) : ClaimVal :=
  .valid ⟨"", owners.getD i "", t⟩

/-- One interleaved step of the claim race: some process finishes with no
id left, skips an occupied head, arms its create after reading the head
absent, or commits its create transaction (succeeding exactly when the
key's version is still 0) at some wall-clock instant `t`. -/
inductive raceStep (owners : List String) : raceSys → raceSys → Prop
  | scanEmpty (s : raceSys) (i : Nat)
      (h : s.procs[i]? = some (.scan [])) :
      raceStep owners s ⟨s.store, s.procs.set i .failed⟩
  | scanOccupied (s : raceSys) (i : Nat) (id : Int) (rest : List Int)
      (kv : KVEntry)
      (h : s.procs[i]? = some (.scan (id :: rest)))
      (hkv : s.store.get id = some kv) :
      raceStep owners s ⟨s.store, s.procs.set i (.scan rest)⟩
  | scanAbsent (s : raceSys) (i : Nat) (id : Int) (rest : List Int)
      (h : s.procs[i]? = some (.scan (id :: rest)))
      (hkv : s.store.get id = none) :
      raceStep owners s ⟨s.store, s.procs.set i (.arm id rest)⟩
  | armTxn (s : raceSys) (i : Nat) (id : Int) (rest : List Int) (t : Int)
      (h : s.procs[i]? = some (.arm id rest)) :
      raceStep owners s
        ⟨(txnCreateIfVer0 s.store id (raceClaimVal owners i t)).1,
         s.procs.set i
           (if (txnCreateIfVer0 s.store id (raceClaimVal owners i t)).2
            then .claimed id else .scan rest)⟩

/-- Reachability under interleaved claim-race steps. -/
def raceReach (owners : List String) : raceSys → raceSys → Prop :=
  Relation.ReflTransGen (raceStep owners)

/-- Initial state of a race of `n` processes over the ids `ids`, the store
holding no claim in the contended namespace. -/
def raceInit (n : Nat) (ids : List Int) : raceSys :=
  ⟨⟨[], 0⟩, List.replicate n (.scan ids)⟩

/-- A process that has finished the claim pass: claimed an id or exhausted
the range. -/
def pstate.terminal : pstate → Prop
  | .claimed _ => True
  | .failed => True
  | _ => False

/-! ## Store lemmas -/

theorem assocGet_eraseKey {κ α : Type} [DecidableEq κ]
    (l : List (κ × α)) (k k' : κ) :
    assocGet (eraseKey l k) k' = if k' = k then none else assocGet l k' := by
  induction l with
  | nil => simp [eraseKey, assocGet]
  | cons hd tl ih =>
    obtain ⟨hk, hv⟩ := hd
    by_cases h1 : hk = k
    · subst h1
      simp only [eraseKey, if_pos rfl, ih]
      by_cases h2 : k' = hk
      · subst h2; simp [assocGet, ih]
      · simp [assocGet, h2, ih]
    · simp only [eraseKey, if_neg h1, assocGet]
      by_cases h2 : k' = hk
      · subst h2; simp [if_neg h1]
      · simp [h2, ih]

theorem ClaimStore.get_put_self (st : ClaimStore) (id : Int) (v : ClaimVal) :
    (st.put id v).get id = some ⟨v, st.rev + 1, st.ver id + 1⟩ := by
  unfold ClaimStore.put ClaimStore.get ClaimStore.ver
  simp only [assocGet, if_pos rfl]
  cases h : assocGet st.kvs id <;> simp [ClaimStore.get, h]

theorem ClaimStore.get_put_ne (st : ClaimStore) (id id' : Int) (v : ClaimVal)
    (h : id' ≠ id) : (st.put id v).get id' = st.get id' := by
  unfold ClaimStore.put ClaimStore.get
  simp only [assocGet, if_neg h, assocGet_eraseKey, if_neg h]

theorem ClaimStore.get_del_self (st : ClaimStore) (id : Int) :
    (st.del id).get id = none := by
  unfold ClaimStore.del ClaimStore.get
  simp [assocGet_eraseKey]

theorem ClaimStore.get_del_ne (st : ClaimStore) (id id' : Int)
    (h : id' ≠ id) : (st.del id).get id' = st.get id' := by
  unfold ClaimStore.del ClaimStore.get
  simp [assocGet_eraseKey, if_neg h]

theorem ClaimStore.isSome_get_put (st : ClaimStore) (id id' : Int)
    (v : ClaimVal) (h : (st.get id').isSome) :
    ((st.put id v).get id').isSome := by
  by_cases hid : id' = id
  · subst hid; simp [ClaimStore.get_put_self]
  · rwa [ClaimStore.get_put_ne st id id' v hid]

/-- The key's modification revision as an optional value (`none` when the
key is absent); the quantity the heartbeat CAS compares against. -/
def ClaimStore.modRevOf (st : ClaimStore) (id : Int) : Option Nat :=
  (st.get id).map (·.modRevision)

theorem txnCreate_of_absent (st : ClaimStore) (id : Int) (v : ClaimVal)
    (h : st.get id = none) : txnCreateIfVer0 st id v = (st.put id v, true) := by
  unfold txnCreateIfVer0 ClaimStore.ver
  rw [h]
  simp

theorem txnCreate_of_occupied (st : ClaimStore) (id : Int) (v : ClaimVal)
    (kv : KVEntry) (h : st.get id = some kv) (hv : 0 < kv.version) :
    txnCreateIfVer0 st id v = (st, false) := by
  unfold txnCreateIfVer0 ClaimStore.ver
  rw [h]
  simp only [ite_eq_right_iff]
  intro heq
  omega

theorem txnDel_of_changed (st : ClaimStore) (id : Int) (r : Nat)
    (h : st.modRevOf id ≠ some r) : txnDelIfModRev st id r = (st, false) := by
  unfold txnDelIfModRev
  unfold ClaimStore.modRevOf at h
  cases hget : st.get id with
  | none => rfl
  | some kv =>
    rw [hget] at h
    simp only [Option.map_some'] at h
    have : kv.modRevision ≠ r := fun hr => h (by rw [hr])
    simp [this]

theorem txnPut_of_changed (st : ClaimStore) (id : Int) (r : Nat) (v : ClaimVal)
    (h : st.modRevOf id ≠ some r) : txnPutIfModRev st id r v = (st, false) := by
  unfold txnPutIfModRev
  unfold ClaimStore.modRevOf at h
  cases hget : st.get id with
  | none => rfl
  | some kv =>
    rw [hget] at h
    simp only [Option.map_some'] at h
    have : kv.modRevision ≠ r := fun hr => h (by rw [hr])
    simp [this]

/-! ## Range lemmas -/

theorem mem_rangeIds {s e id : Int} :
    id ∈ rangeIds s e ↔ s ≤ id ∧ id ≤ e := by
  unfold rangeIds
  rw [List.mem_map]
  constructor
  · rintro ⟨i, hi, rfl⟩
    rw [List.mem_range] at hi
    omega
  · rintro ⟨h1, h2⟩
    refine ⟨(id - s).toNat, ?_, ?_⟩
    · rw [List.mem_range]; omega
    · omega

theorem rangeIds_nodup (s e : Int) : (rangeIds s e).Nodup := by
  unfold rangeIds
  refine List.Nodup.map ?_ (List.nodup_range _)
  intro a b hab
  simp only at hab
  omega

theorem rangeIds_length (s e : Int) :
    (rangeIds s e).length = (e + 1 - s).toNat := by
  simp [rangeIds]

/-! ## Cleanup-pass lemmas -/

theorem cleanupDecision_congr (now grace : Int) (st st' : ClaimStore)
    (id : Int) (h : st.get id = st'.get id) :
    cleanupDecision now grace st id = cleanupDecision now grace st' id := by
  unfold cleanupDecision
  rw [h]

theorem cleanupDecision_of_get_none (now grace : Int) (st : ClaimStore)
    (id : Int) (h : st.get id = none) :
    cleanupDecision now grace st id = none := by
  simp [cleanupDecision, h]

theorem cleanupClaim_get_self (now grace : Int) (st : ClaimStore) (id : Int) :
    (cleanupClaim now grace st id).get id =
      if (cleanupDecision now grace st id).isSome then none else st.get id := by
  cases hget : st.get id with
  | none =>
    have hdec : cleanupDecision now grace st id = none :=
      cleanupDecision_of_get_none now grace st id hget
    simp [cleanupClaim, hdec, hget]
  | some kv =>
    cases hum : unmarshalClaim kv.value with
    | none =>
      have hdec : cleanupDecision now grace st id = none := by
        simp [cleanupDecision, hget, hum]
      simp [cleanupClaim, hdec, hget]
    | some nc =>
      by_cases hst : nc.heartbeatAt < now - grace
      · have hdec : cleanupDecision now grace st id = some kv.modRevision := by
          simp [cleanupDecision, hget, hum, hst]
        have htxn : (txnDelIfModRev st id kv.modRevision).1 = st.del id := by
          simp [txnDelIfModRev, hget]
        simp [cleanupClaim, hdec, htxn, ClaimStore.get_del_self]
      · have hdec : cleanupDecision now grace st id = none := by
          simp [cleanupDecision, hget, hum, hst]
        simp [cleanupClaim, hdec, hget]

theorem cleanupClaim_get_ne (now grace : Int) (st : ClaimStore) (id id' : Int)
    (h : id' ≠ id) : (cleanupClaim now grace st id).get id' = st.get id' := by
  unfold cleanupClaim
  cases hdec : cleanupDecision now grace st id with
  | none => rfl
  | some r =>
    show ((txnDelIfModRev st id r).1).get id' = st.get id'
    cases hget : st.get id with
    | none => simp [txnDelIfModRev, hget]
    | some kv =>
      by_cases hr : kv.modRevision = r
      · simp [txnDelIfModRev, hget, hr, ClaimStore.get_del_ne st id id' h]
      · simp [txnDelIfModRev, hget, hr]

theorem cleanupPass_get_not_mem (now grace : Int) (st : ClaimStore)
    (ids : List Int) (id : Int) (h : id ∉ ids) :
    (cleanupPass now grace st ids).get id = st.get id := by
  induction ids generalizing st with
  | nil => rfl
  | cons hd tl ih =>
    have hne : id ≠ hd := fun he => h (he ▸ List.mem_cons_self hd tl)
    have htl : id ∉ tl := fun ht => h (List.mem_cons_of_mem hd ht)
    unfold cleanupPass at ih ⊢
    simp only [List.foldl_cons]
    rw [ih _ htl]
    exact cleanupClaim_get_ne now grace st hd id hne

theorem cleanupPass_get_mem (now grace : Int) (st : ClaimStore)
    (ids : List Int) (id : Int) (h : id ∈ ids) :
    (cleanupPass now grace st ids).get id =
      if (cleanupDecision now grace st id).isSome then none else st.get id := by
  induction ids generalizing st with
  | nil => exact absurd h (List.not_mem_nil id)
  | cons hd tl ih =>
    have hfold : cleanupPass now grace st (hd :: tl)
        = cleanupPass now grace (cleanupClaim now grace st hd) tl := by
      unfold cleanupPass
      simp only [List.foldl_cons]
    rw [hfold]
    by_cases hhd : id = hd
    · subst hhd
      by_cases htl : id ∈ tl
      · rw [ih _ htl]
        cases hdec : (cleanupDecision now grace st id).isSome
        · have hget : (cleanupClaim now grace st id).get id = st.get id := by
            rw [cleanupClaim_get_self, hdec]
            simp
          rw [cleanupDecision_congr now grace _ st id hget, hdec, hget]
        · have hget : (cleanupClaim now grace st id).get id = none := by
            rw [cleanupClaim_get_self, hdec]
            simp
          rw [cleanupDecision_of_get_none now grace _ id hget, hget]
          simp
      · rw [cleanupPass_get_not_mem now grace _ tl id htl]
        exact cleanupClaim_get_self now grace st id
    · have htl : id ∈ tl := (List.mem_cons.mp h).resolve_left hhd
      rw [ih _ htl]
      rw [cleanupDecision_congr now grace (cleanupClaim now grace st hd) st id
            (cleanupClaim_get_ne now grace st hd id hhd)]
      rw [cleanupClaim_get_ne now grace st hd id hhd]

/-! ## Claim-pass characterization -/

/-- The stale-claim record the claim pass produces for an occupied id, if
any: the stored claim, tagged with its key, when it deserializes and its
heartbeat is older than `now - grace`. -/
def staleRecOf (pfx : String) (now grace : Int) (st : ClaimStore) (id : Int) :
    Option nodeClaim :=
  match st.get id with
  | none => none
  | some kv =>
    match unmarshalClaim kv.value with
    | none => none
    | some nc =>
      if nc.heartbeatAt < now - grace then
        some { nc with nodeID := claimKeyStr pfx id }
      else none

theorem claimPass_spec (pfx sid : String) (now grace : Int) (st : ClaimStore)
    (ids : List Int) :
    claimPass pfx sid now grace st ids =
      ⟨ids.find? (fun id => (st.get id).isNone),
       (ids.takeWhile (fun id => (st.get id).isSome)).filterMap
         (staleRecOf pfx now grace st),
       match ids.find? (fun id => (st.get id).isNone) with
       | some id => st.put id (.valid ⟨"", sid, now⟩)
       | none => st⟩ := by
  induction ids with
  | nil => rfl
  | cons hd tl ih =>
    cases hget : st.get hd with
    | some kv =>
      have hrec : staleRecOf pfx now grace st hd =
          match unmarshalClaim kv.value with
          | none => none
          | some nc =>
            if nc.heartbeatAt < now - grace then
              some { nc with nodeID := claimKeyStr pfx hd }
            else none := by
        simp [staleRecOf, hget]
      cases hum : unmarshalClaim kv.value with
      | none =>
        simp [claimPass, hget, ih, List.find?, List.takeWhile, hrec, hum]
      | some nc =>
        by_cases hst : nc.heartbeatAt < now - grace
        · simp [claimPass, hget, ih, List.find?, List.takeWhile, hrec, hum, hst]
        · simp [claimPass, hget, ih, List.find?, List.takeWhile, hrec, hum, hst]
    | none =>
      simp [claimPass, hget, txnCreate_of_absent st hd (.valid ⟨"", sid, now⟩) hget,
        List.find?, List.takeWhile]

/-! ## Registry lemmas -/

theorem collectServices_eq_filterMap (l : List (String × (svcVal × Nat))) :
    collectServices l = l.filterMap (fun e => unmarshalSvc e.2.1) := by
  induction l with
  | nil => rfl
  | cons hd tl ih =>
    obtain ⟨k, v, lease⟩ := hd
    cases hum : unmarshalSvc v with
    | none => simp [collectServices, hum, ih, List.filterMap_cons]
    | some info => simp [collectServices, hum, ih, List.filterMap_cons]

theorem leasePut_lookup (st : leaseStoreSt) (key k : String) (v : svcVal)
    (l : Nat) :
    assocGet (leasePut st key v l).kvs k =
      if k = key then some (v, l) else assocGet st.kvs k := by
  unfold leasePut
  simp only [assocGet, assocGet_eraseKey]
  by_cases h : k = key
  · simp [h]
  · simp [h]

theorem leasePut_leases (st : leaseStoreSt) (key : String) (v : svcVal)
    (l : Nat) : (leasePut st key v l).leases = st.leases := rfl

theorem getServiceNodeKey_override (reg : regState) (sname : String)
    (info : serviceInfo) :
    getServiceNodeKey reg sname
        (if reg.serviceAddr ≠ "" then { info with addr := reg.serviceAddr }
         else info)
      = getServiceNodeKey reg sname info := by
  by_cases hA : reg.serviceAddr ≠ ""
  · simp [getServiceNodeKey, serviceInfoID, hA]
  · simp [getServiceNodeKey, serviceInfoID, hA]

theorem putService_fail (reg : regState) (now : Int) (fk : List String)
    (st : leaseStoreSt) (sname : String) (info : serviceInfo)
    (h : getServiceNodeKey reg sname info ∈ fk) :
    putService reg now fk st sname info =
      ((getServiceNodeKey reg sname info, false), st) := by
  unfold putService
  simp only []
  rw [getServiceNodeKey_override reg sname info]
  simp [h]

theorem putService_ok (reg : regState) (now : Int) (fk : List String)
    (st : leaseStoreSt) (sname : String) (info : serviceInfo)
    (h : getServiceNodeKey reg sname info ∉ fk) :
    ∃ inf, putService reg now fk st sname info =
      ((getServiceNodeKey reg sname info, true),
       leasePut st (getServiceNodeKey reg sname info) (.valid inf)
         reg.leaseID) := by
  unfold putService
  simp only []
  rw [getServiceNodeKey_override reg sname info]
  simp only [if_neg h]
  exact ⟨_, rfl⟩

theorem reregAll_leases (reg : regState) (now : Int) (fk : List String)
    (st : leaseStoreSt) (rs : List registration) :
    (reregAll reg now fk st rs).2.leases = st.leases ∧
    (reregAll reg now fk st rs).2.nextLeaseID = st.nextLeaseID := by
  induction rs generalizing st with
  | nil => exact ⟨rfl, rfl⟩
  | cons r tl ih =>
    unfold reregAll
    by_cases h : getServiceNodeKey reg r.serviceName r.info ∈ fk
    · rw [putService_fail reg now fk st r.serviceName r.info h]
      exact ⟨rfl, rfl⟩
    · obtain ⟨inf, heq⟩ := putService_ok reg now fk st r.serviceName r.info h
      rw [heq]
      simp only [if_pos]
      exact ih _

theorem reregAll_preserves (reg : regState) (now : Int) (fk : List String)
    (st : leaseStoreSt) (rs : List registration) (k : String)
    (h : ∃ inf, assocGet st.kvs k = some (.valid inf, reg.leaseID)) :
    ∃ inf, assocGet (reregAll reg now fk st rs).2.kvs k
      = some (.valid inf, reg.leaseID) := by
  induction rs generalizing st with
  | nil => exact h
  | cons r tl ih =>
    unfold reregAll
    by_cases hk : getServiceNodeKey reg r.serviceName r.info ∈ fk
    · rw [putService_fail reg now fk st r.serviceName r.info hk]
      exact h
    · obtain ⟨inf, heq⟩ := putService_ok reg now fk st r.serviceName r.info hk
      rw [heq]
      simp only [if_pos]
      refine ih _ ?_
      rw [leasePut_lookup]
      by_cases hkk : k = getServiceNodeKey reg r.serviceName r.info
      · simp [hkk]
      · simpa [hkk] using h

theorem reregAll_ok (reg : regState) (now : Int) (fk : List String)
    (st : leaseStoreSt) (rs : List registration)
    (h : ∀ r ∈ rs, getServiceNodeKey reg r.serviceName r.info ∉ fk) :
    (reregAll reg now fk st rs).1 = .ok () ∧
    ∀ r ∈ rs, ∃ inf,
      assocGet (reregAll reg now fk st rs).2.kvs
          (getServiceNodeKey reg r.serviceName r.info)
        = some (.valid inf, reg.leaseID) := by
  induction rs generalizing st with
  | nil => exact ⟨rfl, by simp⟩
  | cons r tl ih =>
    have hr : getServiceNodeKey reg r.serviceName r.info ∉ fk :=
      h r (List.mem_cons_self r tl)
    have htl : ∀ r' ∈ tl, getServiceNodeKey reg r'.serviceName r'.info ∉ fk :=
      fun r' hm => h r' (List.mem_cons_of_mem r hm)
    obtain ⟨inf, heq⟩ := putService_ok reg now fk st r.serviceName r.info hr
    unfold reregAll
    rw [heq]
    simp only [if_pos]
    obtain ⟨hok, hall⟩ := ih (leasePut st _ (.valid inf) reg.leaseID) htl
    refine ⟨hok, ?_⟩
    intro r' hm
    rcases List.mem_cons.mp hm with hcase | hcase
    · subst hcase
      refine reregAll_preserves reg now fk _ tl _ ?_
      rw [leasePut_lookup]
      simp
    · exact hall r' hcase

theorem reregAll_err (reg : regState) (now : Int) (fk : List String)
    (st : leaseStoreSt) (rs : List registration)
    (h : ∃ r ∈ rs, getServiceNodeKey reg r.serviceName r.info ∈ fk) :
    ∃ k, (reregAll reg now fk st rs).1 = .error (.reregFailed k) := by
  induction rs generalizing st with
  | nil => simp at h
  | cons r tl ih =>
    by_cases hr : getServiceNodeKey reg r.serviceName r.info ∈ fk
    · refine ⟨getServiceNodeKey reg r.serviceName r.info, ?_⟩
      unfold reregAll
      rw [putService_fail reg now fk st r.serviceName r.info hr]
      simp
    · obtain ⟨r', hm, hk⟩ := h
      have hm' : r' ∈ tl := by
        rcases List.mem_cons.mp hm with hcase | hcase
        · subst hcase; exact absurd hk hr
        · exact hcase
      obtain ⟨inf, heq⟩ := putService_ok reg now fk st r.serviceName r.info hr
      unfold reregAll
      rw [heq]
      simp only [if_pos]
      exact ih _ ⟨r', hm', hk⟩

/-! ## Epoch lemmas -/

theorem newFromConfig_done (cfg : snowflakeCfg) (st : epochState)
    (h : st.done = true) : (newFromConfig cfg st).2 = st := by
  unfold newFromConfig
  cases cfg.epoch with
  | invalid => rfl
  | valid t =>
    rw [h]
    by_cases hn : 0 ≤ cfg.nodeID ∧ cfg.nodeID ≤ 1023
    · simp [hn]
    · simp [hn]

theorem runConstructions_done (cfgs : List snowflakeCfg) (st : epochState)
    (h : st.done = true) : runConstructions cfgs st = st := by
  induction cfgs with
  | nil => rfl
  | cons c tl ih =>
    unfold runConstructions
    simp only [List.foldl_cons]
    rw [newFromConfig_done c st h]
    exact ih

/-! ## Race invariant -/

/-- Invariant of the claim race over the id list `ids0`, starting from an
empty contended namespace: stored entries have positive version; every
claimed id is occupied; no id is claimed by two processes; every occupied
id is claimed by some process; a scanning or armed process has only passed
over occupied ids; a failed process has seen the whole range occupied. -/
structure RaceInv (ids0 : List Int) (s : raceSys) : Prop where
  verPos : ∀ (id : Int) (kv : KVEntry), s.store.get id = some kv → 0 < kv.version
  claimedOcc : ∀ (i : Nat) (id : Int), s.procs[i]? = some (.claimed id) →
    (s.store.get id).isSome = true
  claimedInj : ∀ (i j : Nat) (id : Int), s.procs[i]? = some (.claimed id) →
    s.procs[j]? = some (.claimed id) → i = j
  occClaimed : ∀ (id : Int), (s.store.get id).isSome = true →
    ∃ i : Nat, s.procs[i]? = some (.claimed id)
  scanPre : ∀ (i : Nat) (l : List Int), s.procs[i]? = some (.scan l) →
    ∃ pre, pre ++ l = ids0 ∧ ∀ id ∈ pre, (s.store.get id).isSome = true
  armPre : ∀ (i : Nat) (id : Int) (l : List Int), s.procs[i]? = some (.arm id l) →
    ∃ pre, pre ++ id :: l = ids0 ∧ ∀ x ∈ pre, (s.store.get x).isSome = true
  failedAll : ∀ (i : Nat), s.procs[i]? = some .failed →
    ∀ id ∈ ids0, (s.store.get id).isSome = true

theorem procs_set_cases {procs : List pstate} {i j : Nat} {v p : pstate}
    (h : (procs.set i v)[j]? = some p) :
    (i = j ∧ p = v ∧ i < procs.length) ∨ (i ≠ j ∧ procs[j]? = some p) := by
  by_cases hij : i = j
  · subst hij
    have hlt : i < procs.length := by
      by_contra hge
      rw [List.getElem?_eq_none (by simpa using Nat.le_of_not_lt hge)] at h
      exact Option.noConfusion h
    rw [List.getElem?_set_eq_of_lt v hlt] at h
    exact Or.inl ⟨rfl, (Option.some.inj h).symm, hlt⟩
  · exact Or.inr ⟨hij, by rwa [List.getElem?_set_ne hij] at h⟩

theorem procs_set_get_ne {procs : List pstate} {i j : Nat} (v : pstate)
    (h : i ≠ j) : (procs.set i v)[j]? = procs[j]? :=
  List.getElem?_set_ne h

theorem txnCreate_mono (st : ClaimStore) (id : Int) (v : ClaimVal) (x : Int)
    (h : (st.get x).isSome = true) :
    (((txnCreateIfVer0 st id v).1).get x).isSome = true := by
  unfold txnCreateIfVer0
  by_cases hv : st.ver id = 0
  · simp only [if_pos hv]
    exact ClaimStore.isSome_get_put st id x v h
  · simpa [if_neg hv]

theorem txnCreate_fst_of_fail (st : ClaimStore) (id : Int) (v : ClaimVal)
    (h : (txnCreateIfVer0 st id v).2 = false) :
    (txnCreateIfVer0 st id v).1 = st := by
  unfold txnCreateIfVer0 at h ⊢
  by_cases hv : st.ver id = 0
  · rw [if_pos hv] at h
    exact Bool.noConfusion h
  · rw [if_neg hv]

theorem txnCreate_snd_true (st : ClaimStore) (id : Int) (v : ClaimVal)
    (h : (txnCreateIfVer0 st id v).2 = true) : st.ver id = 0 := by
  unfold txnCreateIfVer0 at h
  by_cases hv : st.ver id = 0
  · exact hv
  · rw [if_neg hv] at h
    exact Bool.noConfusion h

theorem get_none_of_ver_zero (st : ClaimStore) (id : Int)
    (hpos : ∀ x kv, st.get x = some kv → 0 < kv.version)
    (h : st.ver id = 0) : st.get id = none := by
  unfold ClaimStore.ver at h
  cases hget : st.get id with
  | none => rfl
  | some kv =>
    rw [hget] at h
    have h' : kv.version = 0 := h
    have := hpos id kv hget
    omega

theorem get_isSome_of_ver_ne_zero (st : ClaimStore) (id : Int)
    (h : ¬ st.ver id = 0) : (st.get id).isSome = true := by
  unfold ClaimStore.ver at h
  cases hget : st.get id with
  | none => rw [hget] at h; exact absurd rfl h
  | some kv => simp

theorem verPos_put (st : ClaimStore) (id : Int) (v : ClaimVal)
    (hpos : ∀ x kv, st.get x = some kv → 0 < kv.version) :
    ∀ x kv, (st.put id v).get x = some kv → 0 < kv.version := by
  intro x kv h
  by_cases hx : x = id
  · subst hx
    rw [ClaimStore.get_put_self] at h
    cases Option.some.inj h
    simp
  · rw [ClaimStore.get_put_ne st id x v hx] at h
    exact hpos x kv h

theorem raceInv_init (n : Nat) (ids : List Int) :
    RaceInv ids (raceInit n ids) := by
  have hget : ∀ id, (raceInit n ids).store.get id = none := by
    intro id
    rfl
  have hproc : ∀ (i : Nat) (p : pstate),
      (raceInit n ids).procs[i]? = some p → p = .scan ids := by
    intro i p h
    unfold raceInit at h
    rw [List.getElem?_replicate] at h
    by_cases hi : i < n
    · rw [if_pos hi] at h
      exact (Option.some.inj h).symm
    · rw [if_neg hi] at h
      exact Option.noConfusion h
  refine ⟨?_, ?_, ?_, ?_, ?_, ?_, ?_⟩
  · intro id kv h
    rw [hget id] at h
    exact Option.noConfusion h
  · intro i id h
    exact absurd (hproc i _ h) (by simp)
  · intro i j id hi hj
    exact absurd (hproc i _ hi) (by simp)
  · intro id h
    rw [hget id] at h
    exact Bool.noConfusion h
  · intro i l h
    have := hproc i _ h
    cases this
    exact ⟨[], rfl, by simp⟩
  · intro i id l h
    exact absurd (hproc i _ h) (by simp)
  · intro i h
    exact absurd (hproc i _ h) (by simp)

theorem txnCreate_snd_false (st : ClaimStore) (id : Int) (v : ClaimVal)
    (h : (txnCreateIfVer0 st id v).2 = false) : ¬ st.ver id = 0 := by
  unfold txnCreateIfVer0 at h
  by_cases hv : st.ver id = 0
  · rw [if_pos hv] at h
    exact Bool.noConfusion h
  · exact hv

theorem raceStep_inv (owners : List String) (ids0 : List Int)
    (s s' : raceSys) (hstep : raceStep owners s s')
    (hinv : RaceInv ids0 s) : RaceInv ids0 s' := by
  cases hstep with
  | scanEmpty i h =>
    refine ⟨hinv.verPos, ?_, ?_, ?_, ?_, ?_, ?_⟩
    · intro j id hj
      rcases procs_set_cases hj with ⟨_, hp, _⟩ | ⟨_, hold⟩
      · exact pstate.noConfusion hp
      · exact hinv.claimedOcc j id hold
    · intro j k id hj hk
      rcases procs_set_cases hj with ⟨_, hp, _⟩ | ⟨_, holdj⟩
      · exact pstate.noConfusion hp
      · rcases procs_set_cases hk with ⟨_, hp, _⟩ | ⟨_, holdk⟩
        · exact pstate.noConfusion hp
        · exact hinv.claimedInj j k id holdj holdk
    · intro id hid
      obtain ⟨j, hj⟩ := hinv.occClaimed id hid
      have hne : i ≠ j := by
        intro he
        subst he
        exact pstate.noConfusion (Option.some.inj (h.symm.trans hj))
      exact ⟨j, by rwa [procs_set_get_ne _ hne]⟩
    · intro j l hj
      rcases procs_set_cases hj with ⟨_, hp, _⟩ | ⟨_, hold⟩
      · exact pstate.noConfusion hp
      · exact hinv.scanPre j l hold
    · intro j id l hj
      rcases procs_set_cases hj with ⟨_, hp, _⟩ | ⟨_, hold⟩
      · exact pstate.noConfusion hp
      · exact hinv.armPre j id l hold
    · intro j hj
      rcases procs_set_cases hj with ⟨heq, _, _⟩ | ⟨_, hold⟩
      · obtain ⟨pre, hpre, hocc⟩ := hinv.scanPre i [] (heq ▸ h)
        rw [List.append_nil] at hpre
        intro id hid
        exact hocc id (hpre ▸ hid)
      · exact hinv.failedAll j hold
  | scanOccupied i id rest kv h hkv =>
    refine ⟨hinv.verPos, ?_, ?_, ?_, ?_, ?_, ?_⟩
    · intro j id' hj
      rcases procs_set_cases hj with ⟨_, hp, _⟩ | ⟨_, hold⟩
      · exact pstate.noConfusion hp
      · exact hinv.claimedOcc j id' hold
    · intro j k id' hj hk
      rcases procs_set_cases hj with ⟨_, hp, _⟩ | ⟨_, holdj⟩
      · exact pstate.noConfusion hp
      · rcases procs_set_cases hk with ⟨_, hp, _⟩ | ⟨_, holdk⟩
        · exact pstate.noConfusion hp
        · exact hinv.claimedInj j k id' holdj holdk
    · intro id' hid'
      obtain ⟨j, hj⟩ := hinv.occClaimed id' hid'
      have hne : i ≠ j := by
        intro he
        subst he
        exact pstate.noConfusion (Option.some.inj (h.symm.trans hj))
      exact ⟨j, by rwa [procs_set_get_ne _ hne]⟩
    · intro j l hj
      rcases procs_set_cases hj with ⟨heq, hp, _⟩ | ⟨_, hold⟩
      · cases hp
        obtain ⟨pre, hpre, hocc⟩ := hinv.scanPre i (id :: rest) (heq ▸ h)
        refine ⟨pre ++ [id], ?_, ?_⟩
        · rw [List.append_assoc]
          exact hpre
        · intro x hx
          rcases List.mem_append.mp hx with hx | hx
          · exact hocc x hx
          · rw [List.mem_singleton.mp hx, hkv]
            rfl
      · exact hinv.scanPre j l hold
    · intro j id' l hj
      rcases procs_set_cases hj with ⟨_, hp, _⟩ | ⟨_, hold⟩
      · exact pstate.noConfusion hp
      · exact hinv.armPre j id' l hold
    · intro j hj
      rcases procs_set_cases hj with ⟨_, hp, _⟩ | ⟨_, hold⟩
      · exact pstate.noConfusion hp
      · exact hinv.failedAll j hold
  | scanAbsent i id rest h hkv =>
    refine ⟨hinv.verPos, ?_, ?_, ?_, ?_, ?_, ?_⟩
    · intro j id' hj
      rcases procs_set_cases hj with ⟨_, hp, _⟩ | ⟨_, hold⟩
      · exact pstate.noConfusion hp
      · exact hinv.claimedOcc j id' hold
    · intro j k id' hj hk
      rcases procs_set_cases hj with ⟨_, hp, _⟩ | ⟨_, holdj⟩
      · exact pstate.noConfusion hp
      · rcases procs_set_cases hk with ⟨_, hp, _⟩ | ⟨_, holdk⟩
        · exact pstate.noConfusion hp
        · exact hinv.claimedInj j k id' holdj holdk
    · intro id' hid'
      obtain ⟨j, hj⟩ := hinv.occClaimed id' hid'
      have hne : i ≠ j := by
        intro he
        subst he
        exact pstate.noConfusion (Option.some.inj (h.symm.trans hj))
      exact ⟨j, by rwa [procs_set_get_ne _ hne]⟩
    · intro j l hj
      rcases procs_set_cases hj with ⟨_, hp, _⟩ | ⟨_, hold⟩
      · exact pstate.noConfusion hp
      · exact hinv.scanPre j l hold
    · intro j id' l hj
      rcases procs_set_cases hj with ⟨heq, hp, _⟩ | ⟨_, hold⟩
      · cases hp
        exact hinv.scanPre i (id :: rest) (heq ▸ h)
      · exact hinv.armPre j id' l hold
    · intro j hj
      rcases procs_set_cases hj with ⟨_, hp, _⟩ | ⟨_, hold⟩
      · exact pstate.noConfusion hp
      · exact hinv.failedAll j hold
  | armTxn i id rest t h =>
    have hlt : i < s.procs.length := (List.getElem?_eq_some.mp h).1
    cases hsucc : (txnCreateIfVer0 s.store id (raceClaimVal owners i t)).2 with
    | true =>
      have hver : s.store.ver id = 0 :=
        txnCreate_snd_true s.store id (raceClaimVal owners i t) hsucc
      have hgetn : s.store.get id = none :=
        get_none_of_ver_zero s.store id hinv.verPos hver
      have hst' : (txnCreateIfVer0 s.store id (raceClaimVal owners i t)).1
          = s.store.put id (raceClaimVal owners i t) := by
        unfold txnCreateIfVer0
        rw [if_pos hver]
      rw [hst', if_pos rfl]
      refine ⟨verPos_put _ _ _ hinv.verPos, ?_, ?_, ?_, ?_, ?_, ?_⟩
      · intro j id' hj
        rcases procs_set_cases hj with ⟨_, hp, _⟩ | ⟨_, hold⟩
        · cases (pstate.claimed.injEq _ _).mp hp
          rw [ClaimStore.get_put_self]
          rfl
        · exact ClaimStore.isSome_get_put s.store id id' _
            (hinv.claimedOcc j id' hold)
      · intro j k id' hj hk
        rcases procs_set_cases hj with ⟨hij, hpj, _⟩ | ⟨hnej, holdj⟩
        · rcases procs_set_cases hk with ⟨hik, _, _⟩ | ⟨hnek, holdk⟩
          · exact hij ▸ hik
          · cases (pstate.claimed.injEq _ _).mp hpj
            have := hinv.claimedOcc k _ holdk
            rw [hgetn] at this
            exact Bool.noConfusion this
        · rcases procs_set_cases hk with ⟨hik, hpk, _⟩ | ⟨hnek, holdk⟩
          · cases (pstate.claimed.injEq _ _).mp hpk
            have := hinv.claimedOcc j _ holdj
            rw [hgetn] at this
            exact Bool.noConfusion this
          · exact hinv.claimedInj j k id' holdj holdk
      · intro id' hid'
        by_cases hidid : id' = id
        · subst hidid
          exact ⟨i, by rw [List.getElem?_set_eq_of_lt _ hlt]⟩
        · rw [ClaimStore.get_put_ne s.store id id' _ hidid] at hid'
          obtain ⟨j, hj⟩ := hinv.occClaimed id' hid'
          have hne : i ≠ j := by
            intro he
            subst he
            exact pstate.noConfusion (Option.some.inj (h.symm.trans hj))
          exact ⟨j, by rwa [procs_set_get_ne _ hne]⟩
      · intro j l hj
        rcases procs_set_cases hj with ⟨_, hp, _⟩ | ⟨_, hold⟩
        · exact pstate.noConfusion hp
        · obtain ⟨pre, hpre, hocc⟩ := hinv.scanPre j l hold
          exact ⟨pre, hpre, fun x hx =>
            ClaimStore.isSome_get_put s.store id x _ (hocc x hx)⟩
      · intro j id' l hj
        rcases procs_set_cases hj with ⟨_, hp, _⟩ | ⟨_, hold⟩
        · exact pstate.noConfusion hp
        · obtain ⟨pre, hpre, hocc⟩ := hinv.armPre j id' l hold
          exact ⟨pre, hpre, fun x hx =>
            ClaimStore.isSome_get_put s.store id x _ (hocc x hx)⟩
      · intro j hj
        rcases procs_set_cases hj with ⟨_, hp, _⟩ | ⟨_, hold⟩
        · exact pstate.noConfusion hp
        · intro id' hid'
          exact ClaimStore.isSome_get_put s.store id id' _
            (hinv.failedAll j hold id' hid')
    | false =>
      have hver : ¬ s.store.ver id = 0 :=
        txnCreate_snd_false s.store id (raceClaimVal owners i t) hsucc
      have hst' : (txnCreateIfVer0 s.store id (raceClaimVal owners i t)).1
          = s.store :=
        txnCreate_fst_of_fail s.store id (raceClaimVal owners i t) hsucc
      rw [hst', if_neg (by simp)]
      refine ⟨hinv.verPos, ?_, ?_, ?_, ?_, ?_, ?_⟩
      · intro j id' hj
        rcases procs_set_cases hj with ⟨_, hp, _⟩ | ⟨_, hold⟩
        · exact pstate.noConfusion hp
        · exact hinv.claimedOcc j id' hold
      · intro j k id' hj hk
        rcases procs_set_cases hj with ⟨_, hp, _⟩ | ⟨_, holdj⟩
        · exact pstate.noConfusion hp
        · rcases procs_set_cases hk with ⟨_, hp, _⟩ | ⟨_, holdk⟩
          · exact pstate.noConfusion hp
          · exact hinv.claimedInj j k id' holdj holdk
      · intro id' hid'
        obtain ⟨j, hj⟩ := hinv.occClaimed id' hid'
        have hne : i ≠ j := by
          intro he
          subst he
          exact pstate.noConfusion (Option.some.inj (h.symm.trans hj))
        exact ⟨j, by rwa [procs_set_get_ne _ hne]⟩
      · intro j l hj
        rcases procs_set_cases hj with ⟨heq, hp, _⟩ | ⟨_, hold⟩
        · cases hp
          obtain ⟨pre, hpre, hocc⟩ := hinv.armPre i id rest (heq ▸ h)
          refine ⟨pre ++ [id], ?_, ?_⟩
          · rw [List.append_assoc]
            exact hpre
          · intro x hx
            rcases List.mem_append.mp hx with hx | hx
            · exact hocc x hx
            · rw [List.mem_singleton.mp hx]
              exact get_isSome_of_ver_ne_zero s.store id hver
        · exact hinv.scanPre j l hold
      · intro j id' l hj
        rcases procs_set_cases hj with ⟨_, hp, _⟩ | ⟨_, hold⟩
        · exact pstate.noConfusion hp
        · exact hinv.armPre j id' l hold
      · intro j hj
        rcases procs_set_cases hj with ⟨_, hp, _⟩ | ⟨_, hold⟩
        · exact pstate.noConfusion hp
        · exact hinv.failedAll j hold

theorem raceReach_inv (owners : List String) (ids0 : List Int)
    (s0 s : raceSys) (h : raceReach owners s0 s)
    (hinv : RaceInv ids0 s0) : RaceInv ids0 s := by
  induction h with
  | refl => exact hinv
  | tail _ hstep ih => exact raceStep_inv owners ids0 _ _ hstep ih

theorem raceStep_length (owners : List String) (s s' : raceSys)
    (h : raceStep owners s s') : s'.procs.length = s.procs.length := by
  cases h with
  | scanEmpty i h => exact List.length_set _ _ _
  | scanOccupied i id rest kv h hkv => exact List.length_set _ _ _
  | scanAbsent i id rest h hkv => exact List.length_set _ _ _
  | armTxn i id rest t h => exact List.length_set _ _ _

theorem raceReach_length (owners : List String) (s0 s : raceSys)
    (h : raceReach owners s0 s) : s.procs.length = s0.procs.length := by
  induction h with
  | refl => rfl
  | tail _ hstep ih => rw [raceStep_length owners _ _ hstep, ih]

theorem race_no_failure (owners : List String) (a b : Int) (n : Nat)
    (s : raceSys) (hn : n ≤ (rangeIds a b).length)
    (hreach : raceReach owners (raceInit n (rangeIds a b)) s)
    (i : Nat) (hfail : s.procs[i]? = some .failed) : False := by
  have hinv : RaceInv (rangeIds a b) s :=
    raceReach_inv owners (rangeIds a b) _ s hreach
      (raceInv_init n (rangeIds a b))
  have hlen : s.procs.length = n := by
    rw [raceReach_length owners _ s hreach]
    simp [raceInit]
  have hi : i < n := by
    have := (List.getElem?_eq_some.mp hfail).1
    omega
  have hocc : ∀ id ∈ rangeIds a b, (s.store.get id).isSome = true :=
    hinv.failedAll i hfail
  classical
  let f : Int → Nat := fun id =>
    if h : ∃ j : Nat, s.procs[j]? = some (.claimed id) then h.choose else 0
  have hfspec : ∀ id ∈ rangeIds a b, s.procs[f id]? = some (.claimed id) := by
    intro id hid
    have hex : ∃ j : Nat, s.procs[j]? = some (.claimed id) :=
      hinv.occClaimed id (hocc id hid)
    show s.procs[(if h : ∃ j : Nat, s.procs[j]? = some (.claimed id)
        then h.choose else 0)]? = some (.claimed id)
    rw [dif_pos hex]
    exact hex.choose_spec
  have hmaps : ∀ id ∈ (rangeIds a b).toFinset,
      f id ∈ (Finset.range n).erase i := by
    intro id hid
    rw [List.mem_toFinset] at hid
    have hspec := hfspec id hid
    have hflt : f id < n := by
      have := (List.getElem?_eq_some.mp hspec).1
      omega
    have hfne : f id ≠ i := by
      intro he
      rw [he, hfail] at hspec
      exact pstate.noConfusion (Option.some.inj hspec)
    exact Finset.mem_erase.mpr ⟨hfne, Finset.mem_range.mpr hflt⟩
  have hinj : Set.InjOn f ((rangeIds a b).toFinset : Set Int) := by
    intro x hx y hy hxy
    have hxm : x ∈ rangeIds a b := List.mem_toFinset.mp (Finset.mem_coe.mp hx)
    have hym : y ∈ rangeIds a b := List.mem_toFinset.mp (Finset.mem_coe.mp hy)
    have hx' := hfspec x hxm
    have hy' := hfspec y hym
    rw [hxy] at hx'
    have := Option.some.inj (hx'.symm.trans hy')
    exact (pstate.claimed.injEq _ _).mp this
  have hcard : (rangeIds a b).toFinset.card ≤ ((Finset.range n).erase i).card :=
    Finset.card_le_card_of_injOn f hmaps hinj
  rw [List.toFinset_card_of_nodup (rangeIds_nodup a b),
    Finset.card_erase_of_mem (Finset.mem_range.mpr hi),
    Finset.card_range] at hcard
  omega

/-! ## Claims -/

/-- Claim C3: the allocator's heartbeat refresh of `heartbeat_at` is
written only through a compare-and-swap conditioned on the claim key's
modification revision equaling the revision observed at the preceding
read; if the revision changed between the read and the write (including
deletion of the key), the transaction does not succeed and the newer state
of the claim is not overwritten: the store is exactly the pre-write store
and the tick's outcome is not `refreshed`. -/
theorem claimC3 (serverID : String) (now : Int) (key : Int)
    (stR stW : ClaimStore) (kv : KVEntry)
    (hread : stR.get key = some kv)
    (hchanged : stW.modRevOf key ≠ some kv.modRevision) :
    (snowflakeKeepAlive serverID now key stR stW).2 = stW ∧
    (snowflakeKeepAlive serverID now key stR stW).1 ≠ .refreshed := by
  cases hum : unmarshalClaim kv.value with
  | none => simp [snowflakeKeepAlive, hread, hum]
  | some claim =>
    by_cases hown : claim.owner ≠ serverID
    · simp [snowflakeKeepAlive, hread, hum, hown]
    · have htxn := txnPut_of_changed stW key kv.modRevision
        (.valid { claim with heartbeatAt := now }) hchanged
      simp [snowflakeKeepAlive, hread, hum, hown, htxn]

/-- Witness for C3: a read observing revision 5 while the store has moved
to revision 7 leaves the store untouched and does not refresh. -/
theorem claimC3_witness :
    ((ClaimStore.mk [((0 : Int), ⟨.valid ⟨"", "me", 100⟩, 5, 1⟩)] 5).get 0
        = some ⟨.valid ⟨"", "me", 100⟩, 5, 1⟩)
    ∧ ((ClaimStore.mk [((0 : Int), ⟨.valid ⟨"", "me", 100⟩, 7, 2⟩)] 7).modRevOf 0
        ≠ some 5)
    ∧ (snowflakeKeepAlive "me" 2000 0
        (ClaimStore.mk [((0 : Int), ⟨.valid ⟨"", "me", 100⟩, 5, 1⟩)] 5)
        (ClaimStore.mk [((0 : Int), ⟨.valid ⟨"", "me", 100⟩, 7, 2⟩)] 7)).2
      = ClaimStore.mk [((0 : Int), ⟨.valid ⟨"", "me", 100⟩, 7, 2⟩)] 7 :=
  ⟨by decide, by decide,
    (claimC3 "me" 2000 0
      (ClaimStore.mk [((0 : Int), ⟨.valid ⟨"", "me", 100⟩, 5, 1⟩)] 5)
      (ClaimStore.mk [((0 : Int), ⟨.valid ⟨"", "me", 100⟩, 7, 2⟩)] 7)
      ⟨.valid ⟨"", "me", 100⟩, 5, 1⟩ (by decide) (by decide)).1⟩

/-- Claim C6: when the heartbeat's re-read finds the recorded owner
differs from this process's server identity, the tick ends with the
ownership-loss outcome and performs no write at all: the store after the
tick is exactly the pre-write store, whatever it is — in particular no
re-claim is ever attempted. -/
theorem claimC6 (serverID : String) (now : Int) (key : Int)
    (stR stW : ClaimStore) (kv : KVEntry) (claim : nodeClaim)
    (hread : stR.get key = some kv)
    (hparse : unmarshalClaim kv.value = some claim)
    (hown : claim.owner ≠ serverID) :
    snowflakeKeepAlive serverID now key stR stW = (.lostOwnership, stW) := by
  simp [snowflakeKeepAlive, hread, hparse, hown]

/-- Witness for C6: a claim owned by "other" read by server "me". -/
theorem claimC6_witness :
    (unmarshalClaim (.valid ⟨"", "other", 100⟩) = some ⟨"", "other", 100⟩)
    ∧ ("other" : String) ≠ "me"
    ∧ snowflakeKeepAlive "me" 2000 0
        (ClaimStore.mk [((0 : Int), ⟨.valid ⟨"", "other", 100⟩, 5, 1⟩)] 5)
        (ClaimStore.mk [((0 : Int), ⟨.valid ⟨"", "other", 100⟩, 5, 1⟩)] 5)
      = (.lostOwnership,
         ClaimStore.mk [((0 : Int), ⟨.valid ⟨"", "other", 100⟩, 5, 1⟩)] 5) :=
  ⟨by decide, by decide,
    claimC6 "me" 2000 0
      (ClaimStore.mk [((0 : Int), ⟨.valid ⟨"", "other", 100⟩, 5, 1⟩)] 5)
      (ClaimStore.mk [((0 : Int), ⟨.valid ⟨"", "other", 100⟩, 5, 1⟩)] 5)
      ⟨.valid ⟨"", "other", 100⟩, 5, 1⟩ ⟨"", "other", 100⟩
      (by decide) (by decide) (by decide)⟩

/-- Claim C10: the allocator's heartbeat never creates the claim key: when
its read finds the key absent, the tick returns at once with the
key-missing outcome and performs no write, so the store is unchanged and
the claim is not resurrected. -/
theorem claimC10 (serverID : String) (now : Int) (key : Int)
    (stR stW : ClaimStore) (hread : stR.get key = none) :
    snowflakeKeepAlive serverID now key stR stW = (.keyMissing, stW) := by
  simp [snowflakeKeepAlive, hread]

/-- Witness for C10: a heartbeat tick over an empty store writes nothing. -/
theorem claimC10_witness :
    ((ClaimStore.mk [] 3).get 0 = none)
    ∧ snowflakeKeepAlive "me" 2000 0 (ClaimStore.mk [] 3) (ClaimStore.mk [] 3)
      = (.keyMissing, ClaimStore.mk [] 3) :=
  ⟨by decide,
    claimC10 "me" 2000 0 (ClaimStore.mk [] 3) (ClaimStore.mk [] 3) (by decide)⟩

/-- Claim C5: when the claim pass completes the whole inclusive range with
no create succeeding (its `allocatedID` stays the `-1` sentinel, here
`none`), `GeneratorCreater.Init` returns the explicit
"no available node_id in range" error rather than succeeding. -/
theorem claimC5 (pfx sid : String) (now grace s e : Int) (st : ClaimStore)
    (hs : 0 ≤ s) (he : s ≤ e)
    (hnone : (claimPass pfx sid now grace
        (cleanupPass now grace st (rangeIds s e))
        (rangeIds s e)).allocatedID = none) :
    snowflakeInit pfx sid now grace s e st
      = .error (.noAvailableNodeID s e) := by
  unfold snowflakeInit
  rw [if_neg (by omega)]
  simp only []
  rw [hnone]

/-- Witness for C5: a one-id range whose only id holds a fresh claim of
another owner; initialization fails with the explicit error. -/
theorem claimC5_witness :
    ((0 : Int) ≤ 0 ∧ (0 : Int) ≤ 0)
    ∧ snowflakeInit "" "me" 1000 100 0 0
        (ClaimStore.mk [((0 : Int), ⟨.valid ⟨"", "other", 950⟩, 1, 1⟩)] 1)
      = .error (.noAvailableNodeID 0 0) :=
  ⟨⟨by decide, by decide⟩,
    claimC5 "" "me" 1000 100 0 0
      (ClaimStore.mk [((0 : Int), ⟨.valid ⟨"", "other", 950⟩, 1, 1⟩)] 1)
      (by decide) (by decide) (by decide)⟩

/-- Claim C7: the custom epoch is installed into the process-wide scheme
exactly once: in any sequence of generator constructions whose first
construction carries a parseable epoch `t`, the installed epoch after the
whole sequence is exactly `t` with the once-guard spent — every later
construction, whatever epoch it configures and whether or not it succeeds,
leaves the installed epoch unchanged. -/
theorem claimC7 (c : snowflakeCfg) (cfgs : List snowflakeCfg) (t d : Int)
    (hc : c.epoch = .valid t) :
    runConstructions (c :: cfgs) ⟨false, d⟩ = ⟨true, t⟩ := by
  have h1 : (newFromConfig c ⟨false, d⟩).2 = ⟨true, t⟩ := by
    unfold newFromConfig
    rw [hc]
    by_cases hn : 0 ≤ c.nodeID ∧ c.nodeID ≤ 1023
    · simp [hn]
    · simp [hn]
  unfold runConstructions
  simp only [List.foldl_cons]
  rw [h1]
  exact runConstructions_done cfgs ⟨true, t⟩ rfl

/-- Witness for C7: a first construction with epoch 42 followed by one
configuring epoch 99 still leaves 42 installed. -/
theorem claimC7_witness :
    (snowflakeCfg.mk (.valid 42) 1).epoch = .valid 42
    ∧ runConstructions
        [⟨.valid 42, 1⟩, ⟨.valid 99, 5⟩, ⟨.invalid, 2⟩] ⟨false, 0⟩
      = ⟨true, 42⟩ :=
  ⟨rfl, claimC7 ⟨.valid 42, 1⟩ [⟨.valid 99, 5⟩, ⟨.invalid, 2⟩] 42 0 rfl⟩

/-- Claim C8: `GetServices` returns, without error, exactly the records
under the service's key path whose values deserialize; moreover inserting
a corrupt record anywhere leaves the call's result unchanged (and still
not an error), so a single corrupt record never causes the call to fail
or to drop the remaining records. -/
theorem claimC8 (svcPfx : String) (st : leaseStoreSt) (serviceName : String) :
    getServices svcPfx st serviceName
      = .ok ((st.kvs.filter
            (fun e => (getServiceKey svcPfx serviceName).isPrefixOf e.1)).filterMap
          (fun e => unmarshalSvc e.2.1))
    ∧ ∀ (pre post : List (String × (svcVal × Nat))) (k : String) (lease : Nat),
        getServices svcPfx
            ⟨st.leases, st.nextLeaseID, pre ++ (k, (.corrupt, lease)) :: post⟩
            serviceName
          = getServices svcPfx
              ⟨st.leases, st.nextLeaseID, pre ++ post⟩ serviceName := by
  constructor
  · simp only [getServices, collectServices_eq_filterMap]
  · intro pre post k lease
    simp only [getServices, collectServices_eq_filterMap]
    simp only [List.filter_append, List.filterMap_append, List.filter_cons]
    by_cases hp : (getServiceKey svcPfx serviceName).isPrefixOf k
    · simp [hp, List.filterMap_cons, unmarshalSvc]
    · simp [hp]

/-- Counterexample to C1 as stated: in a one-id range whose only key is
occupied by a fresh (non-stale) claim, the claim pass records nothing at
all for logging — `staleClaims` stays empty — contradicting the claim
that an id occupied by a fresh claim "is recorded for a warning log".
(The code records the ids occupied by a stale claim, and emits them with
`logger.Errorf`.) -/
theorem claimC1_counterexample :
    ((ClaimStore.mk [((0 : Int), ⟨.valid ⟨"", "peer", 1000⟩, 1, 1⟩)] 1).get 0
        = some ⟨.valid ⟨"", "peer", 1000⟩, 1, 1⟩)
    ∧ ¬ ((1000 : Int) < 1000 - 600)
    ∧ (claimPass "/pfx" "me" 1000 600
        (ClaimStore.mk [((0 : Int), ⟨.valid ⟨"", "peer", 1000⟩, 1, 1⟩)] 1)
        [0]).staleClaims = [] := by
  refine ⟨by decide, by decide, ?_⟩
  decide

/-- Claim C1 (amended): the claim pass iterates the configured inclusive
range in order; for each id whose key is absent it attempts the atomic
create conditioned on the key's version being exactly 0; the first id
whose create succeeds becomes the process's node id and iteration stops
immediately; every occupied id is skipped with no create attempted on it
(the store is written at most at the allocated id); and the ids occupied
by a claim that deserializes and is stale — not the fresh ones — are
recorded for an error log.  In this single-process (interference-free)
run: the allocated id is the first id of the range whose key is absent;
the recorded claims are exactly the stale ones among the occupied ids
probed before allocation; and the store changes only by the one created
claim, if any. -/
theorem claimC1 (pfx sid : String) (now grace : Int) (st : ClaimStore)
    (s e : Int) :
    (claimPass pfx sid now grace st (rangeIds s e)).allocatedID
        = (rangeIds s e).find? (fun id => (st.get id).isNone)
    ∧ (claimPass pfx sid now grace st (rangeIds s e)).staleClaims
        = ((rangeIds s e).takeWhile (fun id => (st.get id).isSome)).filterMap
            (staleRecOf pfx now grace st)
    ∧ (claimPass pfx sid now grace st (rangeIds s e)).store
        = match (rangeIds s e).find? (fun id => (st.get id).isNone) with
          | some id => st.put id (.valid ⟨"", sid, now⟩)
          | none => st := by
  rw [claimPass_spec]
  exact ⟨rfl, rfl, rfl⟩

/-- Lemma: the cleanup decision fires exactly on a present, deserializable
claim whose heartbeat is strictly older than `now - grace`. -/
theorem cleanupDecision_isSome_iff (now grace : Int) (st : ClaimStore)
    (id : Int) :
    (cleanupDecision now grace st id).isSome = true ↔
      ∃ kv nc, st.get id = some kv ∧ unmarshalClaim kv.value = some nc
        ∧ nc.heartbeatAt < now - grace := by
  constructor
  · intro h
    cases hget : st.get id with
    | none =>
      rw [cleanupDecision_of_get_none now grace st id hget] at h
      exact Bool.noConfusion h
    | some kv =>
      cases hum : unmarshalClaim kv.value with
      | none =>
        have : cleanupDecision now grace st id = none := by
          simp [cleanupDecision, hget, hum]
        rw [this] at h
        exact Bool.noConfusion h
      | some nc =>
        by_cases hst : nc.heartbeatAt < now - grace
        · exact ⟨kv, nc, rfl, hum, hst⟩
        · have : cleanupDecision now grace st id = none := by
            simp [cleanupDecision, hget, hum, hst]
          rw [this] at h
          exact Bool.noConfusion h
  · rintro ⟨kv, nc, hget, hum, hst⟩
    simp [cleanupDecision, hget, hum, hst]

/-- Claim C2: over the configured range, the cleanup pass deletes an
existing claim exactly when the stored claim deserializes and its
`heartbeat_at` is strictly older than `now - grace` (otherwise the key is
left exactly as it was — in particular a claim within the grace period is
never deleted); and the delete is the atomic transaction conditioned on
the key's modification revision being unchanged since the read: against a
store whose revision for the key differs from the one the decision
observed, the transaction leaves the store untouched and does not
succeed. -/
theorem claimC2 (now grace s e : Int) (st : ClaimStore) (id : Int)
    (hs : s ≤ id) (he : id ≤ e) :
    ((cleanupPass now grace st (rangeIds s e)).get id
        = if (cleanupDecision now grace st id).isSome then none
          else st.get id)
    ∧ ((cleanupDecision now grace st id).isSome = true ↔
        ∃ kv nc, st.get id = some kv ∧ unmarshalClaim kv.value = some nc
          ∧ nc.heartbeatAt < now - grace)
    ∧ (∀ (stW : ClaimStore) (r : Nat),
        cleanupDecision now grace st id = some r →
        stW.modRevOf id ≠ some r →
        txnDelIfModRev stW id r = (stW, false))
    ∧ (∀ (kv : KVEntry) (nc : nodeClaim), st.get id = some kv →
        unmarshalClaim kv.value = some nc →
        ¬ nc.heartbeatAt < now - grace →
        (cleanupPass now grace st (rangeIds s e)).get id = some kv) := by
  have hmem : id ∈ rangeIds s e := mem_rangeIds.mpr ⟨hs, he⟩
  refine ⟨cleanupPass_get_mem now grace st _ id hmem,
    cleanupDecision_isSome_iff now grace st id, ?_, ?_⟩
  · intro stW r _ hch
    exact txnDel_of_changed stW id r hch
  · intro kv nc hget hum hst
    have hdec : cleanupDecision now grace st id = none := by
      simp [cleanupDecision, hget, hum, hst]
    rw [cleanupPass_get_mem now grace st _ id hmem, hdec]
    simpa using hget

/-- Witness for C2: in the range `[0, 1]`, a stale claim at id 0 is
deleted by the cleanup pass while a fresh claim at id 1 survives it
untouched; and the conditional delete against a moved revision fails. -/
theorem claimC2_witness :
    ((0 : Int) ≤ 0 ∧ (0 : Int) ≤ 1)
    ∧ (cleanupPass 1000 100
        (ClaimStore.mk [((0 : Int), ⟨.valid ⟨"", "o", 50⟩, 3, 1⟩),
                        ((1 : Int), ⟨.valid ⟨"", "o", 950⟩, 4, 1⟩)] 4)
        (rangeIds 0 1)).get 0 = none
    ∧ (cleanupPass 1000 100
        (ClaimStore.mk [((0 : Int), ⟨.valid ⟨"", "o", 50⟩, 3, 1⟩),
                        ((1 : Int), ⟨.valid ⟨"", "o", 950⟩, 4, 1⟩)] 4)
        (rangeIds 0 1)).get 1 = some ⟨.valid ⟨"", "o", 950⟩, 4, 1⟩
    ∧ txnDelIfModRev
        (ClaimStore.mk [((0 : Int), ⟨.valid ⟨"", "o", 50⟩, 9, 2⟩)] 9) 0 3
      = (ClaimStore.mk [((0 : Int), ⟨.valid ⟨"", "o", 50⟩, 9, 2⟩)] 9, false) := by
  refine ⟨⟨by decide, by decide⟩, ?_, ?_, ?_⟩
  · have h := claimC2 1000 100 0 1
      (ClaimStore.mk [((0 : Int), ⟨.valid ⟨"", "o", 50⟩, 3, 1⟩),
                      ((1 : Int), ⟨.valid ⟨"", "o", 950⟩, 4, 1⟩)] 4)
      0 (by decide) (by decide)
    rw [h.1]
    decide
  · have h := claimC2 1000 100 0 1
      (ClaimStore.mk [((0 : Int), ⟨.valid ⟨"", "o", 50⟩, 3, 1⟩),
                      ((1 : Int), ⟨.valid ⟨"", "o", 950⟩, 4, 1⟩)] 4)
      1 (by decide) (by decide)
    exact h.2.2.2 ⟨.valid ⟨"", "o", 950⟩, 4, 1⟩ ⟨"", "o", 950⟩
      (by decide) (by decide) (by decide)
  · have h := claimC2 1000 100 0 1
      (ClaimStore.mk [((0 : Int), ⟨.valid ⟨"", "o", 50⟩, 3, 1⟩)] 3)
      0 (by decide) (by decide)
    exact h.2.2.1 (ClaimStore.mk [((0 : Int), ⟨.valid ⟨"", "o", 50⟩, 9, 2⟩)] 9)
      3 (by decide) (by decide)

theorem heartbeatRun_length (ticks : List tickEnv) (reg0 : regState)
    (st0 : leaseStoreSt) :
    (heartbeatRun ticks reg0 st0).2.2.length = ticks.length := by
  induction ticks generalizing reg0 st0 with
  | nil => rfl
  | cons e tl ih => simp [heartbeatRun, ih]

/-- Claim C4: when a registry keep-alive finds the lease unknown to the
store, the session grants a new lease (adopting its id) and re-registers
every record of the Local Registration Table attached to the new lease
id; when every re-put succeeds the keep-alive reports success and each
tracked record is present in the store under the new lease; when some
record's put fails, that failure is returned as the keep-alive error; and
the heartbeat loop runs one keep-alive per tick to the end of its
schedule whatever the outcomes, so an erroring tick is retried on the
next one. -/
theorem claimC4 (reg : regState) (now : Int) (failKeys : List String)
    (st : leaseStoreSt) (hlost : reg.leaseID ∉ st.leases) :
    ((registryKeepAlive reg now false failKeys st).2.1.leaseID = st.nextLeaseID
      ∧ st.nextLeaseID ∈ (registryKeepAlive reg now false failKeys st).2.2.leases)
    ∧ ((∀ p ∈ reg.registrations,
          getServiceNodeKey reg p.2.serviceName p.2.info ∉ failKeys) →
        (registryKeepAlive reg now false failKeys st).1 = .ok ()
        ∧ ∀ p ∈ reg.registrations, ∃ inf,
            assocGet (registryKeepAlive reg now false failKeys st).2.2.kvs
                (getServiceNodeKey reg p.2.serviceName p.2.info)
              = some (.valid inf, st.nextLeaseID))
    ∧ ((∃ p ∈ reg.registrations,
          getServiceNodeKey reg p.2.serviceName p.2.info ∈ failKeys) →
        ∃ k, (registryKeepAlive reg now false failKeys st).1
          = .error (.reregFailed k))
    ∧ (∀ (ticks : List tickEnv) (reg0 : regState) (st0 : leaseStoreSt),
        (heartbeatRun ticks reg0 st0).2.2.length = ticks.length) := by
  have hka : registryKeepAlive reg now false failKeys st
      = ((reregAll ⟨st.nextLeaseID, reg.svcPfx, reg.serviceAddr, reg.registrations⟩
            now failKeys
            ⟨st.nextLeaseID :: st.leases, st.nextLeaseID + 1, st.kvs⟩
            (reg.registrations.map (·.2))).1,
         ⟨st.nextLeaseID, reg.svcPfx, reg.serviceAddr, reg.registrations⟩,
         (reregAll ⟨st.nextLeaseID, reg.svcPfx, reg.serviceAddr, reg.registrations⟩
            now failKeys
            ⟨st.nextLeaseID :: st.leases, st.nextLeaseID + 1, st.kvs⟩
            (reg.registrations.map (·.2))).2) := by
    unfold registryKeepAlive
    rw [if_neg hlost]
    rfl
  rw [hka]
  refine ⟨⟨rfl, ?_⟩, ?_, ?_, heartbeatRun_length⟩
  · rw [(reregAll_leases _ now failKeys _ _).1]
    exact List.mem_cons_self _ _
  · intro hall
    have hall' : ∀ r ∈ reg.registrations.map (·.2),
        getServiceNodeKey
            ⟨st.nextLeaseID, reg.svcPfx, reg.serviceAddr, reg.registrations⟩
            r.serviceName r.info ∉ failKeys := by
      intro r hr
      obtain ⟨p, hp, rfl⟩ := List.mem_map.mp hr
      exact hall p hp
    obtain ⟨hok, hrecs⟩ := reregAll_ok _ now failKeys _ _ hall'
    refine ⟨hok, ?_⟩
    intro p hp
    exact hrecs p.2 (List.mem_map.mpr ⟨p, hp, rfl⟩)
  · rintro ⟨p, hp, hk⟩
    exact reregAll_err _ now failKeys _ _
      ⟨p.2, List.mem_map.mpr ⟨p, hp, rfl⟩, hk⟩

/-- Witness for C4: one tracked endpoint, a lost lease (id 5 not among
the live leases), no failing puts. -/
theorem claimC4_witness :
    ((5 : Nat) ∉ ([2] : List Nat))
    ∧ (registryKeepAlive
        ⟨5, "", "", [("/services/s/h:1", ⟨"s", ⟨"h", 1, [], 0⟩⟩)]⟩
        1000 false [] ⟨[2], 7, []⟩).2.1.leaseID = 7
    ∧ (7 : Nat) ∈ (registryKeepAlive
        ⟨5, "", "", [("/services/s/h:1", ⟨"s", ⟨"h", 1, [], 0⟩⟩)]⟩
        1000 false [] ⟨[2], 7, []⟩).2.2.leases :=
  ⟨by decide,
    (claimC4 ⟨5, "", "", [("/services/s/h:1", ⟨"s", ⟨"h", 1, [], 0⟩⟩)]⟩
      1000 [] ⟨[2], 7, []⟩ (by decide)).1.1,
    (claimC4 ⟨5, "", "", [("/services/s/h:1", ⟨"s", ⟨"h", 1, [], 0⟩⟩)]⟩
      1000 [] ⟨[2], 7, []⟩ (by decide)).1.2⟩

/-- Claim C9: in any interleaved race of `n` processes running the claim
pass over the same configured range (with `n` at most the range size,
starting from an empty contended namespace), at every reachable state no
two distinct processes hold a claim of the same id — a fortiori none with
differing owners — and once every process has terminated, each one ends
owning an id (none fails), so with the first conjunct the owned ids are
pairwise distinct.  The read and the conditional create are separate
atomic actions, so steps of other processes interleave between them; a
process's create succeeds only under the `Version(key) == 0` condition. -/
theorem claimC9 (owners : List String) (a b : Int) (n : Nat) (s : raceSys)
    (hn : n ≤ (rangeIds a b).length)
    (hreach : raceReach owners (raceInit n (rangeIds a b)) s) :
    (∀ (i j : Nat) (id : Int), s.procs[i]? = some (.claimed id) →
        s.procs[j]? = some (.claimed id) → i = j)
    ∧ ((∀ (i : Nat) (p : pstate), s.procs[i]? = some p → p.terminal) →
        ∀ i : Nat, i < n → ∃ id : Int, s.procs[i]? = some (.claimed id)) := by
  have hinv := raceReach_inv owners (rangeIds a b) _ s hreach
    (raceInv_init n (rangeIds a b))
  refine ⟨hinv.claimedInj, ?_⟩
  intro hterm i hi
  have hlen : s.procs.length = n := by
    rw [raceReach_length owners _ s hreach]
    simp [raceInit]
  have hlt : i < s.procs.length := by omega
  obtain ⟨p, hp⟩ : ∃ p, s.procs[i]? = some p := by
    cases hg : s.procs[i]? with
    | some p => exact ⟨p, rfl⟩
    | none =>
      rw [List.getElem?_eq_getElem hlt] at hg
      exact Option.noConfusion hg
  have hterm' := hterm i p hp
  cases p with
  | scan l =>
    simp [pstate.terminal] at hterm'
  | arm id l =>
    simp [pstate.terminal] at hterm'
  | failed =>
    exact (race_no_failure owners a b n s hn hreach i hp).elim
  | claimed id =>
    exact ⟨id, hp⟩

/-- Witness for C9: one process racing over the one-id range `[0, 0]`
from the empty store; after its read and its successful create it has
terminated owning id 0, and the claimed ids are trivially distinct. -/
theorem claimC9_witness :
    (1 ≤ (rangeIds 0 0).length)
    ∧ ((∀ (i : Nat) (p : pstate),
          (raceSys.mk
            (ClaimStore.mk [((0 : Int), ⟨.valid ⟨"", "o1", 5⟩, 1, 1⟩)] 1)
            [.claimed 0]).procs[i]? = some p → p.terminal) →
        ∀ i : Nat, i < 1 → ∃ id : Int,
          (raceSys.mk
            (ClaimStore.mk [((0 : Int), ⟨.valid ⟨"", "o1", 5⟩, 1, 1⟩)] 1)
            [.claimed 0]).procs[i]? = some (.claimed id)) := by
  have hreach : raceReach ["o1"] (raceInit 1 (rangeIds 0 0))
      (raceSys.mk
        (ClaimStore.mk [((0 : Int), ⟨.valid ⟨"", "o1", 5⟩, 1, 1⟩)] 1)
        [.claimed 0]) := by
    have step1 : raceStep ["o1"] (raceInit 1 (rangeIds 0 0))
        ⟨(raceInit 1 (rangeIds 0 0)).store,
         (raceInit 1 (rangeIds 0 0)).procs.set 0 (.arm 0 [])⟩ :=
      raceStep.scanAbsent _ 0 0 [] (by decide) (by decide)
    have step2 : raceStep ["o1"]
        (⟨(raceInit 1 (rangeIds 0 0)).store,
          (raceInit 1 (rangeIds 0 0)).procs.set 0 (.arm 0 [])⟩ : raceSys)
        (raceSys.mk
          (ClaimStore.mk [((0 : Int), ⟨.valid ⟨"", "o1", 5⟩, 1, 1⟩)] 1)
          [.claimed 0]) := by
      exact raceStep.armTxn
        (⟨(raceInit 1 (rangeIds 0 0)).store,
          (raceInit 1 (rangeIds 0 0)).procs.set 0 (.arm 0 [])⟩ : raceSys)
        0 0 [] 5 (by decide)
    exact Relation.ReflTransGen.tail (Relation.ReflTransGen.single step1) step2
  have h := claimC9 ["o1"] 0 0 1
    (raceSys.mk
      (ClaimStore.mk [((0 : Int), ⟨.valid ⟨"", "o1", 5⟩, 1, 1⟩)] 1)
      [.claimed 0])
    (by decide) hreach
  exact ⟨by decide, h.2⟩
